import Mathlib

/-!
# SpecGap — verification of the admission-queue / staged-analysis spec

Shallow embedding of the SpecGap frontend (`Frontend/src/pages/UploadPage.tsx`,
`Frontend/src/api/client.ts`, the zustand stores) together with a spec-derived
model of the backend admission queue and session orchestrator (whose Python
source is not part of the frontend tree).  Each definition is translated from
the corresponding TypeScript source unless its doc comment says otherwise.
-/

namespace SpecGap

/-! ## Upload page: file selection (`UploadPage.tsx`) -/

/-- A selected file as far as `validateFile`/`handleFiles` inspect it:
its `name` and its byte `size`. -/
structure FileInfo where
  name : String
  size : Nat
deriving DecidableEq, Repr

/-- Constant `ACCEPTED_TYPES = [".pdf", ".docx", ".txt"]` (UploadPage.tsx
line 34). -/
def ACCEPTED_TYPES : List String := [".pdf", ".docx", ".txt"]

/-- Constant `MAX_FILE_SIZE = 10 * 1024 * 1024` (UploadPage.tsx line 35). -/
def MAX_FILE_SIZE : Nat := 10 * 1024 * 1024

/-- Translation of `name.split(".").pop()`: the segment of `name` after its
last `.`, or all of `name` when it contains no dot (`split` always returns a
nonempty array, whose last element this is). -/
def segmentAfterLastDot (cs : List Char) : List Char :=
  (cs.reverse.takeWhile (fun c => c ≠ '.')).reverse

/-- Translation of ``const extension = `.${file.name.split(".").pop()?.toLowerCase()}` ``
(UploadPage.tsx line 97).  `toLowerCase` acts characterwise; only ASCII
matters for the comparison against the accepted extensions. -/
def fileExtension (name : String) : String :=
  ⟨'.' :: (segmentAfterLastDot name.data).map Char.toLower⟩

/-- Translation of `validateFile` (UploadPage.tsx lines 96-105): `some
errorMessage` on a rejected file, `none` on an accepted one. -/
def validateFile (f : FileInfo) : Option String :=
  if !(ACCEPTED_TYPES.contains (fileExtension f.name)) then
    some "Invalid file type. Accepted: .pdf, .docx, .txt"
  else if f.size > MAX_FILE_SIZE then
    some "File too large. Max size: 10MB"
  else
    none

/-- Translation of the `addFiles` action of `useUploadStore`: append the new
files, dropping any whose name already occurs in the existing selection. -/
def addFiles (existing newFiles : List FileInfo) : List FileInfo :=
  existing ++ newFiles.filter (fun f => !(existing.any (fun g => g.name == f.name)))

/-- Translation of `handleFiles` (UploadPage.tsx lines 107-138) as a function
from the current selection and the batch of new files to the next selection:
reject the whole batch when `files.length + fileArray.length > 2`; otherwise
keep the files passing `validateFile` and hand them to `addFiles` (the toasts
for rejected files have no effect on the selection). -/
def handleFiles (stateFiles newFiles : List FileInfo) : List FileInfo :=
  if stateFiles.length + newFiles.length > 2 then
    stateFiles
  else
    let validFiles := newFiles.filter (fun f => (validateFile f).isNone)
    if validFiles.length > 0 then addFiles stateFiles validFiles else stateFiles

/-! ## Analysis modes and stage bookkeeping (`UploadPage.tsx`) -/

/-- Values of the `analysisMode` state: `"quick" | "deep"`. -/
inductive AnalysisMode where
  | quick
  | deep
deriving DecidableEq, Repr

/-- Translation of `getNextStage` (UploadPage.tsx lines 167-182): the stage
the UI advances to once `completedStage` has finished, by mode; falls back
to the input stage when no rule matches. -/
def getNextStage (completedStage : String) (mode : AnalysisMode) : String :=
  match mode with
  | .quick =>
    if completedStage == "council" then "round1"
    else if completedStage == "round1" then "round2"
    else if completedStage == "round2" then "round3"
    else if completedStage == "round3" then "synthesis"
    else completedStage
  | .deep =>
    if completedStage == "council" then "tech_audit"
    else if completedStage == "tech_audit" then "legal_audit"
    else if completedStage == "legal_audit" then "synthesis"
    else completedStage

/-- The spec's quick-mode stage list:
`starting, council, round1, round2, round3, synthesis, done`. -/
def quickStages : List String :=
  ["starting", "council", "round1", "round2", "round3", "synthesis", "done"]

/-- Immediate successor of a stage in an ordered stage list. -/
def listSuccessor (l : List String) (s : String) : Option String :=
  match l with
  | a :: b :: t => if a == s then some b else listSuccessor (b :: t) s
  | _ => none

/-! ## Queue stream events (`client.ts` lines 900-1024) -/

/-- The `daily_quota` record of `QueueInfo` (client.ts lines 904-910). -/
structure DailyQuotaInfo where
  used : Nat
  limit : Nat
  remaining : Nat
  is_exhausted : Bool
  resets_at : String
deriving DecidableEq, Repr

/-- Interface `QueueInfo` (client.ts lines 900-911): the client-visible queue
snapshot. -/
structure QueueInfo where
  queue_length : Nat
  is_processing : Bool
  estimated_wait_seconds : Nat
  daily_quota : DailyQuotaInfo
deriving DecidableEq, Repr

/-- The `wait_time` record carried by queue events (client.ts lines 922-925). -/
structure WaitTime where
  wait_seconds : Nat
  wait_formatted : String
deriving DecidableEq, Repr

/-- The stage names admitted by the `stage` arm of `QueueStreamEvent`
(client.ts line 1021): `'starting' | 'council' | 'round1' | 'round2' |
'round3' | 'synthesis'`. -/
inductive QuickStage where
  | starting
  | council
  | round1
  | round2
  | round3
  | synthesis
deriving DecidableEq, Fintype, Repr

/-- The string carried by a `QuickStage`. -/
def QuickStage.name : QuickStage → String
  | .starting => "starting"
  | .council => "council"
  | .round1 => "round1"
  | .round2 => "round2"
  | .round3 => "round3"
  | .synthesis => "synthesis"

/-- The `QueueStreamEvent` union (client.ts lines 1019-1024), parametrised by
the type `α` of the `complete` payload (`CouncilSessionResponse`, whose
internal shape none of the event handling inspects). -/
inductive QueueStreamEvent (α : Type) where
  | queue (position : Nat) (wait_time : WaitTime) (queue_info : Option QueueInfo)
  | stage (stage : QuickStage) (message : Option String)
  | complete (result : α)
  | error (message : String)
  | info (message : String)
deriving DecidableEq, Repr

/-- The discriminant string (`event.type`) of a `QueueStreamEvent`. -/
def QueueStreamEvent.kind : QueueStreamEvent α → String
  | .queue .. => "queue"
  | .stage .. => "stage"
  | .complete .. => "complete"
  | .error .. => "error"
  | .info .. => "info"

/-! ## Audit result store (`useAuditResultStore`) -/

/-- A flashcard as far as the audit-result store inspects it: the store's
actions compare only `c.id` (a string); the remaining presentation fields
(`title`, `description`, …) are never read by the store and are omitted. -/
structure Flashcard where
  id : String
deriving DecidableEq, Repr

/-- The `response.council_verdict` record as read by `setResponse`. -/
structure CouncilVerdict where
  flashcards : List Flashcard
deriving DecidableEq, Repr

/-- The response object handed to `setResponse`; `council_verdict` may be
absent (deep analysis). -/
structure AuditResponse where
  council_verdict : Option CouncilVerdict
deriving DecidableEq, Repr

/-- State of `useAuditResultStore`.  `currentCardIndex` is an `Int` because
`Math.min(currentCardIndex + 1, flashcards.length - 1)` evaluates to `-1` on
an empty flashcard list. -/
structure AuditResultState where
  response : Option AuditResponse
  flashcards : List Flashcard
  acceptedCards : List Flashcard
  rejectedCards : List Flashcard
  currentCardIndex : Int
deriving DecidableEq, Repr

/-- The store's initial state. -/
def initialAuditResultState : AuditResultState :=
  { response := none
    flashcards := []
    acceptedCards := []
    rejectedCards := []
    currentCardIndex := 0 }

/-- Action `setResponse`: store the response, extract
`response.council_verdict?.flashcards || []`, clear the interaction state. -/
def setResponse (r : AuditResponse) (_s : AuditResultState) : AuditResultState :=
  { response := some r
    flashcards := (r.council_verdict.map (·.flashcards)).getD []
    acceptedCards := []
    rejectedCards := []
    currentCardIndex := 0 }

/-- Action `acceptCard`: when the card's id is not yet among `acceptedCards`,
append it and set `currentCardIndex := Math.min(currentCardIndex + 1,
flashcards.length - 1)`. -/
def acceptCard (card : Flashcard) (s : AuditResultState) : AuditResultState :=
  if (s.acceptedCards.find? (fun c => c.id == card.id)).isSome then s
  else
    { s with
      acceptedCards := s.acceptedCards ++ [card]
      currentCardIndex := min (s.currentCardIndex + 1) ((s.flashcards.length : Int) - 1) }

/-- Action `rejectCard`: the same update on `rejectedCards`. -/
def rejectCard (card : Flashcard) (s : AuditResultState) : AuditResultState :=
  if (s.rejectedCards.find? (fun c => c.id == card.id)).isSome then s
  else
    { s with
      rejectedCards := s.rejectedCards ++ [card]
      currentCardIndex := min (s.currentCardIndex + 1) ((s.flashcards.length : Int) - 1) }

/-- Action `nextCard`: advance while `currentCardIndex < flashcards.length - 1`. -/
def nextCard (s : AuditResultState) : AuditResultState :=
  if s.currentCardIndex < (s.flashcards.length : Int) - 1 then
    { s with currentCardIndex := s.currentCardIndex + 1 }
  else s

/-- Action `previousCard`: step back while `currentCardIndex > 0`. -/
def previousCard (s : AuditResultState) : AuditResultState :=
  if s.currentCardIndex > 0 then
    { s with currentCardIndex := s.currentCardIndex - 1 }
  else s

/-- Action `resetCards`: clear the interaction state, keep the loaded response. -/
def resetCards (s : AuditResultState) : AuditResultState :=
  { s with acceptedCards := [], rejectedCards := [], currentCardIndex := 0 }

/-- Action `clearResults`: reset everything to the initial state. -/
def clearResults (_s : AuditResultState) : AuditResultState :=
  initialAuditResultState

/-- One invocation of a `useAuditResultStore` action. -/
inductive AuditAction where
  | setResponse (r : AuditResponse)
  | acceptCard (card : Flashcard)
  | rejectCard (card : Flashcard)
  | nextCard
  | previousCard
  | resetCards
  | clearResults
deriving DecidableEq, Repr

/-- Apply one store action. -/
def applyAction (s : AuditResultState) : AuditAction → AuditResultState
  | .setResponse r => setResponse r s
  | .acceptCard card => acceptCard card s
  | .rejectCard card => rejectCard card s
  | .nextCard => nextCard s
  | .previousCard => previousCard s
  | .resetCards => resetCards s
  | .clearResults => clearResults s

/-- Run a sequence of store actions from the initial state. -/
def runActions (acts : List AuditAction) : AuditResultState :=
  acts.foldl applyAction initialAuditResultState

/-- The index invariant of `useAuditResultStore` that turns out to be
inductive: the index stays in `[-1, max 0 (length - 1)]` and is nonnegative
whenever the flashcard list is nonempty. -/
def IndexInv (s : AuditResultState) : Prop :=
  -1 ≤ s.currentCardIndex ∧
  s.currentCardIndex ≤ max 0 ((s.flashcards.length : Int) - 1) ∧
  (s.flashcards.length = 0 ∨ 0 ≤ s.currentCardIndex)

/-! ## Deep analysis call (`auditApi.deepAnalysis`, client.ts lines 716-767) -/

/-- Possible outcomes of the network interaction inside
`auditApi.deepAnalysis`, for a `complete` payload of type `α`:
`fetchFailed` — the `fetch` call itself rejects, so there is no response;
`httpError` — a response with `response.ok` false (its message is the parsed
error body, with the `.catch` fallback already applied);
`bodyInvalid` — `response.ok`, but `await response.json()` rejects;
`success` — `response.ok` with a parsed JSON body. -/
inductive DeepOutcome (α : Type) where
  | fetchFailed
  | httpError (message : String)
  | bodyInvalid
  | success (result : α)
deriving DecidableEq, Repr

/-- An event passed to `onEvent` by `auditApi.deepAnalysis`. -/
inductive DeepEvent (α : Type) where
  | stage (stage : String)
  | error (message : String)
  | complete (result : α)
deriving DecidableEq, Repr

/-- The exact sequence of events `auditApi.deepAnalysis` passes to `onEvent`,
by outcome, read off the source: `stage tech_audit` before the fetch; on a
non-ok response an `error` event and a raise; otherwise `stage legal_audit`,
then (if the body parses) `stage synthesis` followed by one `complete`
carrying the wrapped result.  The normalisation applied to the payload
(`wrappedResult`) is not modelled: no event-level claim inspects it, so
`complete` carries the body unchanged. -/
def deepAnalysisEvents : DeepOutcome α → List (DeepEvent α)
  | .fetchFailed => [.stage "tech_audit"]
  | .httpError msg => [.stage "tech_audit", .error msg]
  | .bodyInvalid => [.stage "tech_audit", .stage "legal_audit"]
  | .success r =>
    [.stage "tech_audit", .stage "legal_audit", .stage "synthesis", .complete r]

/-- Whether `auditApi.deepAnalysis` raises (rejects its promise) for the
given outcome: it does except on full success. -/
def deepAnalysisRaises : DeepOutcome α → Bool
  | .success _ => false
  | _ => true

/-- The value of `response.ok` for an outcome: `none` when `fetch` itself
rejected and no response exists. -/
def DeepOutcome.responseOk : DeepOutcome α → Option Bool
  | .fetchFailed => none
  | .httpError _ => some false
  | .bodyInvalid => some true
  | .success _ => some true

/-- Whether the outcome is a full success (ok response with parsed body). -/
def DeepOutcome.isSuccess : DeepOutcome α → Bool
  | .success _ => true
  | _ => false

/-- The stage names of the `stage` events of an event sequence, in order. -/
def stageEvents (evs : List (DeepEvent α)) : List String :=
  evs.filterMap fun e =>
    match e with
    | .stage s => some s
    | _ => none

/-- Discriminator for `error` events. -/
def isErrorEvent : DeepEvent α → Bool
  | .error _ => true
  | _ => false

/-- Discriminator for `complete` events. -/
def isCompleteEvent : DeepEvent α → Bool
  | .complete _ => true
  | _ => false

/-! ## `handleUpload` branch structure (UploadPage.tsx lines 219-279) -/

/-- The API call `handleUpload` awaits to run the analysis. -/
inductive UploadCall where
  | queuedCouncilSessionStream
  | deepAnalysis
deriving DecidableEq, Repr

/-- Branching of `handleUpload` (UploadPage.tsx lines 219-279): in quick mode
it awaits `queueApi.queuedCouncilSessionStream`, in deep mode
`auditApi.deepAnalysis`. -/
def handleUploadCall : AnalysisMode → UploadCall
  | .quick => .queuedCouncilSessionStream
  | .deep => .deepAnalysis

/-- The endpoint each call POSTs to (client.ts lines 724 and 969). -/
def UploadCall.endpoint : UploadCall → String
  | .queuedCouncilSessionStream => "/audit/council-session/queued"
  | .deepAnalysis => "/audit/deep-analysis"

/-- Whether the call admits the session through the Admission Queue before
processing: `queuedCouncilSessionStream` POSTs to the queue-managed
streaming endpoint `/audit/council-session/queued`, whose stream delivers
queue admission events (position, wait time) before any stage runs;
`deepAnalysis` POSTs directly to `/audit/deep-analysis` and contains no
enqueue step and no queue event handling. -/
def UploadCall.enqueuesBeforeProcessing : UploadCall → Bool
  | .queuedCouncilSessionStream => true
  | .deepAnalysis => false

/-! ## SSE framing of `queuedCouncilSessionStream` (client.ts lines 984-1010)

The read loop appends each decoded chunk to `buffer`, splits the buffer on
the frame delimiter (the blank line `"\n\n"`), keeps the last (possibly
incomplete) piece as the new buffer, and for every completed frame starting
with `"data: "` parses the rest as JSON, invoking `onEvent` on success.  The
model works on `List Char` (the `TextDecoder` with `stream: true` already
reassembles code points across chunk boundaries). -/

/-- Leftmost non-overlapping split on the two-character delimiter `"\n\n"`,
matching `buffer.split("\n\n")`: always returns at least one piece, and the
last piece is the remainder after the final delimiter occurrence. -/
def splitChunks : List Char → List (List Char)
  | [] => [[]]
  | [c] => [[c]]
  | c :: d :: rest =>
    if c = '\n' ∧ d = '\n' then
      [] :: splitChunks rest
    else
      match splitChunks (d :: rest) with
      | [] => [[c]]
      | h :: t => (c :: h) :: t

/-- Handling of one completed frame: `line.startsWith("data: ")` guards
`JSON.parse(line.slice(6))`; the JSON parser is abstract (`parse`), returning
`none` exactly when `JSON.parse` throws (in which case the frame is skipped). -/
def parseFrame {E : Type} (parse : List Char → Option E) (line : List Char) : Option E :=
  if "data: ".data.isPrefixOf line then parse (line.drop 6) else none

/-- The completed frames of a full stream: all delimiter-separated pieces
except the trailing remainder. -/
def framesOf (s : List Char) : List (List Char) :=
  (splitChunks s).dropLast

/-- One iteration of the read loop (client.ts lines 990-1010) on the state
`(buffer, events so far)`. -/
def stepChunk {E : Type} (parse : List Char → Option E)
    (acc : List Char × List E) (chunk : List Char) : List Char × List E :=
  let parts := splitChunks (acc.1 ++ chunk)
  (parts.getLastD [], acc.2 ++ parts.dropLast.filterMap (parseFrame parse))

/-- The events `queuedCouncilSessionStream` delivers to `onEvent`, in order,
for a transport that splits the byte stream into the given chunks. -/
def streamEvents {E : Type} (parse : List Char → Option E)
    (chunks : List (List Char)) : List E :=
  (chunks.foldl (stepChunk parse) ([], [])).2

/-! ## Spec-modelled backend: quota, admission queue, orchestrator

The backend (a Python service started by uvicorn) is not part of the
frontend source tree; the definitions below are modelled from the spec, as
their doc comments state, and the claims about them are settled against
this model. -/

/-- Modelled from the spec: `DailyQuota` (spec section 3) — the backend
quota singleton is not in the frontend tree.  Fields `used` and `limit`;
`remaining = max(0, limit - used)` and `is_exhausted = remaining == 0` are
derived (truncated subtraction on `Nat` is the `max(0, ·)`). -/
structure DailyQuota where
  used : Nat
  limit : Nat
deriving DecidableEq, Repr

/-- Derived field `remaining = max(0, limit - used)`. -/
def DailyQuota.remaining (q : DailyQuota) : Nat := q.limit - q.used

/-- Derived field `is_exhausted = remaining == 0`. -/
def DailyQuota.is_exhausted (q : DailyQuota) : Bool := q.remaining == 0

/-- Modelled from the spec: the Admission Queue state (spec sections 2-4) —
the backend queue is not in the frontend tree.  FIFO list of waiting session
ids, the single processing slot, and the daily quota. -/
structure QueueState where
  waiting : List String
  processingSlot : Option String
  quota : DailyQuota
deriving DecidableEq, Repr

/-- Modelled from the spec (section 7, recommended policy): enqueue accepts
the session as `waiting` even when the quota is exhausted, preserving its
position. -/
def qEnqueue (s : QueueState) (sid : String) : QueueState :=
  { s with waiting := s.waiting ++ [sid] }

/-- Modelled from the spec (section 4.2 promotion algorithm): when the slot
is free and a head exists, attempt `try_consume`; on failure (quota
exhausted) do not promote and leave the head in place; otherwise move the
head into the slot and consume one quota unit. -/
def qPromote (s : QueueState) : QueueState :=
  match s.processingSlot, s.waiting with
  | none, h :: t =>
    if s.quota.is_exhausted then s
    else
      { waiting := t
        processingSlot := some h
        quota := { s.quota with used := s.quota.used + 1 } }
  | _, _ => s

/-- Modelled from the spec (section 6, client-visible fields): the
`queue_info` snapshot broadcast to every subscriber; the wait estimate and
reset timestamp are opaque parameters here. -/
def queueInfoOf (s : QueueState) (estWait : Nat) (resetsAt : String) : QueueInfo :=
  { queue_length := s.waiting.length
    is_processing := s.processingSlot.isSome
    estimated_wait_seconds := estWait
    daily_quota :=
      { used := s.quota.used
        limit := s.quota.limit
        remaining := s.quota.remaining
        is_exhausted := s.quota.is_exhausted
        resets_at := resetsAt } }

/-- A queue operation of the admission queue (enqueue or a promotion
attempt); quota reset is deliberately excluded, matching the claim's scope
of an exhausted window. -/
inductive QueueOp where
  | enqueue (sid : String)
  | promote
deriving DecidableEq, Repr

/-- Apply one queue operation. -/
def applyQueueOp (s : QueueState) : QueueOp → QueueState
  | .enqueue sid => qEnqueue s sid
  | .promote => qPromote s

/-- Translation of the `disabled` prop of the Start Audit Analysis button
(UploadPage.tsx line 696):
`files.length === 0 || isUploading || queueInfo?.daily_quota.is_exhausted`. -/
def startButtonDisabled (filesLength : Nat) (isUploading : Bool)
    (queueInfo : Option QueueInfo) : Bool :=
  filesLength == 0 || isUploading ||
    (match queueInfo with
     | some qi => qi.daily_quota.is_exhausted
     | none => false)

/-- The `status` field of a `QueueEntry` (spec section 3; also the union in
client.ts line 916). -/
inductive EntryStatus where
  | waiting
  | processing
  | completed
  | failed
  | timeout
  | cancelled
deriving DecidableEq, Repr

/-- Modelled from the spec: a `QueueEntry` (spec section 3) as the
orchestrator lifecycle reads it — the backend orchestrator is not in the
frontend tree.  Timestamps and the error message do not influence the
processing-count invariant and are omitted. -/
structure OrchEntry where
  id : Nat
  session_id : String
  status : EntryStatus
  mode : AnalysisMode
deriving DecidableEq, Repr

/-- Modelled from the spec: the Session Orchestrator's state — its entry
table and the quota it owns (spec sections 2, 5). -/
structure OrchState where
  entries : List OrchEntry
  quota : DailyQuota
deriving DecidableEq, Repr

/-- The number of entries currently in status `processing`. -/
def countProcessing (s : OrchState) : Nat :=
  s.entries.countP (fun e => e.status == EntryStatus.processing)

/-- Modelled from the spec: the orchestrator transitions (spec sections 3-5).
`enqueue` creates a `waiting` entry; `promote` moves a waiting entry to
`processing` only when no entry is `processing` and the quota is not
exhausted, consuming one unit; `cancelWaiting` removes a waiting entry;
`finish` moves a processing entry to a terminal status (completion, engine
failure, timeout, or graceful cancellation). -/
inductive OrchStep : OrchState → OrchState → Prop where
  | enqueue (s : OrchState) (nid : Nat) (sid : String) (mode : AnalysisMode) :
      OrchStep s { s with entries := s.entries ++ [⟨nid, sid, .waiting, mode⟩] }
  | promote (s : OrchState) (i : Nat) (e : OrchEntry)
      (hi : s.entries.get? i = some e)
      (hw : e.status = .waiting)
      (hnone : ∀ e' ∈ s.entries, e'.status ≠ .processing)
      (hq : s.quota.is_exhausted = false) :
      OrchStep s
        { entries := s.entries.set i { e with status := .processing }
          quota := { s.quota with used := s.quota.used + 1 } }
  | cancelWaiting (s : OrchState) (i : Nat) (e : OrchEntry)
      (hi : s.entries.get? i = some e) (hw : e.status = .waiting) :
      OrchStep s { s with entries := s.entries.eraseIdx i }
  | finish (s : OrchState) (i : Nat) (e : OrchEntry) (t : EntryStatus)
      (hi : s.entries.get? i = some e) (hp : e.status = .processing)
      (ht : t = .completed ∨ t = .failed ∨ t = .timeout ∨ t = .cancelled) :
      OrchStep s { s with entries := s.entries.set i { e with status := t } }

/-- The orchestrator's initial state for a daily limit. -/
def initOrchState (limit : Nat) : OrchState :=
  { entries := [], quota := { used := 0, limit := limit } }

/-- States reachable from the initial state by any interleaving of
orchestrator transitions. -/
def OrchReachable (limit : Nat) (s : OrchState) : Prop :=
  Relation.ReflTransGen OrchStep (initOrchState limit) s

/-! ## Helper lemmas -/

theorem splitChunks_ne_nil (cs : List Char) : splitChunks cs ≠ [] := by
  induction cs using splitChunks.induct with
  | case1 => simp [splitChunks]
  | case2 c => simp [splitChunks]
  | case3 c d rest h ih =>
    rw [splitChunks, if_pos h]
    simp
  | case4 c d rest h hs ih =>
    rw [splitChunks, if_neg h, hs]
    simp
  | case5 c d rest h x xs hs ih =>
    rw [splitChunks, if_neg h, hs]
    simp

theorem splitChunks_singleton (cs : List Char) (h : List Char)
    (hs : splitChunks cs = [h]) : h = cs := by
  induction cs using splitChunks.induct generalizing h with
  | case1 =>
    rw [splitChunks] at hs
    simpa using hs.symm
  | case2 c =>
    rw [splitChunks] at hs
    simpa using hs.symm
  | case3 c d rest hcd ih =>
    rw [splitChunks, if_pos hcd] at hs
    exact absurd (List.cons_eq_cons.mp hs).2 (splitChunks_ne_nil rest)
  | case4 c d rest hcd hnil ih =>
    exact absurd hnil (splitChunks_ne_nil _)
  | case5 c d rest hcd x xs hcons ih =>
    rw [splitChunks, if_neg hcd, hcons] at hs
    obtain ⟨h1, h2⟩ := List.cons_eq_cons.mp hs
    subst h2
    rw [← h1, ih x hcons]

theorem getLastD_cons_of_ne_nil {α : Type} (a : α) {l : List α} (h : l ≠ [])
    (d : α) : (a :: l).getLastD d = l.getLastD d := by
  cases l with
  | nil => exact absurd rfl h
  | cons x xs => simp only [List.getLastD_cons]

theorem getLastD_append_of_ne_nil {α : Type} (l1 : List α) {l2 : List α}
    (h : l2 ≠ []) (d : α) : (l1 ++ l2).getLastD d = l2.getLastD d := by
  induction l1 with
  | nil => rfl
  | cons a t ih =>
    have hne : t ++ l2 ≠ [] := fun hc => h (List.append_eq_nil.mp hc).2
    rw [List.cons_append, getLastD_cons_of_ne_nil _ hne, ih]

theorem splitChunks_append (a b : List Char) :
    splitChunks (a ++ b) =
      (splitChunks a).dropLast ++
        splitChunks ((splitChunks a).getLastD [] ++ b) := by
  induction a using splitChunks.induct with
  | case1 =>
    simp [splitChunks]
  | case2 c =>
    rw [show splitChunks [c] = [[c]] from by rw [splitChunks]]
    simp
  | case3 c d rest hcd ih =>
    obtain ⟨hc, hd⟩ := hcd
    subst hc; subst hd
    have hne := splitChunks_ne_nil rest
    rw [show ('\n' :: '\n' :: rest) ++ b = '\n' :: '\n' :: (rest ++ b) from rfl]
    rw [show splitChunks ('\n' :: '\n' :: (rest ++ b)) = [] :: splitChunks (rest ++ b) from by
      rw [splitChunks, if_pos ⟨rfl, rfl⟩]]
    rw [show splitChunks ('\n' :: '\n' :: rest) = [] :: splitChunks rest from by
      rw [splitChunks, if_pos ⟨rfl, rfl⟩]]
    rw [List.dropLast_cons_of_ne_nil hne, getLastD_cons_of_ne_nil _ hne,
      List.cons_append, ← ih]
  | case4 c d rest hcd hnil ih =>
    exact absurd hnil (splitChunks_ne_nil _)
  | case5 c d rest hcd x xs hcons ih =>
    rw [hcons] at ih
    have hsplit_a : splitChunks (c :: d :: rest) = (c :: x) :: xs := by
      rw [splitChunks, if_neg hcd, hcons]
    cases xs with
    | nil =>
      have hx : x = d :: rest := splitChunks_singleton _ _ hcons
      rw [hsplit_a]
      simp only [List.dropLast_single, List.getLastD_cons, List.getLastD_nil,
        List.nil_append]
      rw [hx]
    | cons y ys =>
      have hyne : (y :: ys : List (List Char)) ≠ [] := by simp
      have hdb : splitChunks (d :: (rest ++ b)) =
          x :: ((y :: ys).dropLast ++ splitChunks ((y :: ys).getLastD x ++ b)) := by
        rw [show d :: (rest ++ b) = (d :: rest) ++ b from rfl, ih,
          List.dropLast_cons_of_ne_nil hyne, List.getLastD_cons, List.cons_append]
      rw [show (c :: d :: rest) ++ b = c :: d :: (rest ++ b) from rfl]
      rw [splitChunks, if_neg hcd, hdb]
      rw [hsplit_a, List.dropLast_cons_of_ne_nil hyne,
        getLastD_cons_of_ne_nil _ hyne, List.cons_append]
      rw [show ((y :: ys).getLastD []) = ((y :: ys).getLastD x) from by
        rw [List.getLastD_cons, List.getLastD_cons]]

theorem splitChunks_residual (cs : List Char) :
    splitChunks ((splitChunks cs).getLastD []) = [(splitChunks cs).getLastD []] := by
  induction cs using splitChunks.induct with
  | case1 =>
    rw [show splitChunks ([] : List Char) = [[]] from by rw [splitChunks]]
    simp only [List.getLastD_cons, List.getLastD_nil]
    rw [splitChunks]
  | case2 c =>
    rw [show splitChunks [c] = [[c]] from by rw [splitChunks]]
    simp only [List.getLastD_cons, List.getLastD_nil]
    rw [splitChunks]
  | case3 c d rest hcd ih =>
    obtain ⟨hc, hd⟩ := hcd
    subst hc; subst hd
    have hne := splitChunks_ne_nil rest
    rw [show splitChunks ('\n' :: '\n' :: rest) = [] :: splitChunks rest from by
      rw [splitChunks, if_pos ⟨rfl, rfl⟩]]
    rw [getLastD_cons_of_ne_nil _ hne]
    exact ih
  | case4 c d rest hcd hnil ih =>
    exact absurd hnil (splitChunks_ne_nil _)
  | case5 c d rest hcd x xs hcons ih =>
    have hsplit_a : splitChunks (c :: d :: rest) = (c :: x) :: xs := by
      rw [splitChunks, if_neg hcd, hcons]
    rw [hcons] at ih
    cases xs with
    | nil =>
      have hx : x = d :: rest := splitChunks_singleton _ _ hcons
      rw [hsplit_a]
      simp only [List.getLastD_cons, List.getLastD_nil]
      rw [hx]
      rw [show (c :: (d :: rest)) = c :: d :: rest from rfl, hsplit_a, hx]
    | cons y ys =>
      have hyne : (y :: ys : List (List Char)) ≠ [] := by simp
      rw [hsplit_a, getLastD_cons_of_ne_nil _ hyne]
      rw [getLastD_cons_of_ne_nil _ hyne] at ih
      exact ih

theorem foldl_stepChunk (E : Type) (parse : List Char → Option E)
    (chunks : List (List Char)) :
    ∀ (buf : List Char) (evs : List E), splitChunks buf = [buf] →
      chunks.foldl (stepChunk parse) (buf, evs) =
        ((splitChunks (buf ++ chunks.flatten)).getLastD [],
          evs ++ ((splitChunks (buf ++ chunks.flatten)).dropLast).filterMap
            (parseFrame parse)) := by
  induction chunks with
  | nil =>
    intro buf evs hbuf
    simp only [List.foldl_nil, List.flatten_nil, List.append_nil, hbuf]
    simp
  | cons c cs ih =>
    intro buf evs hbuf
    rw [List.foldl_cons]
    have hres : splitChunks ((splitChunks (buf ++ c)).getLastD []) =
        [(splitChunks (buf ++ c)).getLastD []] := splitChunks_residual (buf ++ c)
    rw [show stepChunk parse (buf, evs) c =
        ((splitChunks (buf ++ c)).getLastD [],
          evs ++ ((splitChunks (buf ++ c)).dropLast).filterMap (parseFrame parse))
      from rfl]
    rw [ih _ _ hres]
    have hSne : splitChunks ((splitChunks (buf ++ c)).getLastD [] ++ cs.flatten) ≠ [] :=
      splitChunks_ne_nil _
    rw [show buf ++ (c :: cs).flatten = (buf ++ c) ++ cs.flatten from by
      rw [List.flatten_cons, List.append_assoc]]
    rw [splitChunks_append (buf ++ c) cs.flatten]
    rw [getLastD_append_of_ne_nil _ hSne, List.dropLast_append_of_ne_nil _ hSne,
      List.filterMap_append, List.append_assoc]

theorem countP_set_le {α : Type} (p : α → Bool) (l : List α) (i : Nat) (x : α) :
    (l.set i x).countP p ≤ l.countP p + 1 := by
  induction l generalizing i with
  | nil => simp
  | cons a t ih =>
    cases i with
    | zero =>
      simp only [List.set_cons_zero, List.countP_cons]
      split_ifs <;> omega
    | succ j =>
      simp only [List.set_cons_succ, List.countP_cons]
      have := ih j
      split_ifs <;> omega

theorem countP_set_not {α : Type} (p : α → Bool) (l : List α) (i : Nat) (x : α)
    (hx : p x = false) : (l.set i x).countP p ≤ l.countP p := by
  induction l generalizing i with
  | nil => simp
  | cons a t ih =>
    cases i with
    | zero =>
      simp only [List.set_cons_zero, List.countP_cons, hx]
      simp only [Bool.false_eq_true, if_false]
      split_ifs <;> omega
    | succ j =>
      simp only [List.set_cons_succ, List.countP_cons]
      have := ih j
      split_ifs <;> omega

theorem countP_eraseIdx_le {α : Type} (p : α → Bool) (l : List α) (i : Nat) :
    (l.eraseIdx i).countP p ≤ l.countP p := by
  induction l generalizing i with
  | nil => simp
  | cons a t ih =>
    cases i with
    | zero =>
      simp only [List.eraseIdx_cons_zero, List.countP_cons]
      split_ifs <;> omega
    | succ j =>
      simp only [List.eraseIdx_cons_succ, List.countP_cons]
      have := ih j
      split_ifs <;> omega

theorem qPromote_exhausted (s : QueueState)
    (h : s.quota.is_exhausted = true) : qPromote s = s := by
  unfold qPromote
  cases hslot : s.processingSlot <;> cases hw : s.waiting <;> simp [h]

theorem queueOps_exhausted_frozen (ops : List QueueOp) :
    ∀ s : QueueState, s.quota.is_exhausted = true →
      (ops.foldl applyQueueOp s).processingSlot = s.processingSlot ∧
      (ops.foldl applyQueueOp s).quota = s.quota := by
  induction ops with
  | nil => intro s _; exact ⟨rfl, rfl⟩
  | cons op t ih =>
    intro s h
    rw [List.foldl_cons]
    cases op with
    | enqueue sid =>
      have h2 : (qEnqueue s sid).quota.is_exhausted = true := h
      have := ih (qEnqueue s sid) h2
      exact ⟨this.1, this.2⟩
    | promote =>
      rw [show applyQueueOp s QueueOp.promote = qPromote s from rfl,
        qPromote_exhausted s h]
      exact ih s h

theorem indexInv_apply (s : AuditResultState) (a : AuditAction)
    (h : IndexInv s) : IndexInv (applyAction s a) := by
  obtain ⟨h1, h2, h3⟩ := h
  unfold IndexInv
  cases a with
  | setResponse r =>
    dsimp only [applyAction, setResponse]
    omega
  | acceptCard card =>
    dsimp only [applyAction, acceptCard]
    split
    · exact ⟨h1, h2, h3⟩
    · dsimp only
      omega
  | rejectCard card =>
    dsimp only [applyAction, rejectCard]
    split
    · exact ⟨h1, h2, h3⟩
    · dsimp only
      omega
  | nextCard =>
    dsimp only [applyAction, nextCard]
    split <;> (try dsimp only) <;> omega
  | previousCard =>
    dsimp only [applyAction, previousCard]
    split <;> (try dsimp only) <;> omega
  | resetCards =>
    dsimp only [applyAction, resetCards]
    omega
  | clearResults =>
    dsimp only [applyAction, clearResults, initialAuditResultState]
    omega

theorem indexInv_foldl (acts : List AuditAction) :
    ∀ s : AuditResultState, IndexInv s → IndexInv (acts.foldl applyAction s) := by
  induction acts with
  | nil => intro s hs; exact hs
  | cons a t ih => intro s hs; exact ih _ (indexInv_apply s a hs)

/-! ## Claim theorems -/

/-- Claim C1, as stated, is false on the code: it asserts that every
submitted session, for both modes, is admitted through the Admission Queue
before processing, but the deep branch of `handleUpload` calls
`auditApi.deepAnalysis` directly, with no enqueue step. -/
theorem c1_counterexample :
    handleUploadCall AnalysisMode.deep = UploadCall.deepAnalysis ∧
    (handleUploadCall AnalysisMode.deep).enqueuesBeforeProcessing = false ∧
    (handleUploadCall AnalysisMode.deep).endpoint = "/audit/deep-analysis" := by
  decide

/-- Claim C1, amended: only the quick branch of `handleUpload` admits the
session through the Admission Queue (via `queueApi.queuedCouncilSessionStream`
on `/audit/council-session/queued`); the deep branch calls
`auditApi.deepAnalysis` on `/audit/deep-analysis` directly, with no enqueue
step. -/
theorem c1_upload_admission :
    (handleUploadCall AnalysisMode.quick).enqueuesBeforeProcessing = true ∧
    (handleUploadCall AnalysisMode.quick).endpoint = "/audit/council-session/queued" ∧
    (handleUploadCall AnalysisMode.deep).enqueuesBeforeProcessing = false ∧
    (handleUploadCall AnalysisMode.deep).endpoint = "/audit/deep-analysis" := by
  decide

/-- Claim C2: for `mode=deep` and every engine outcome, the sequence of
stage events `auditApi.deepAnalysis` passes to `onEvent` is a prefix of
`[tech_audit, legal_audit, synthesis]` in that order — so stages are visited
in exactly that order and never out of order. -/
theorem c2_deep_stage_events_prefix (α : Type) (o : DeepOutcome α) :
    List.IsPrefix (stageEvents (deepAnalysisEvents o))
      ["tech_audit", "legal_audit", "synthesis"] := by
  cases o with
  | fetchFailed => exact ⟨["legal_audit", "synthesis"], rfl⟩
  | httpError msg => exact ⟨["legal_audit", "synthesis"], rfl⟩
  | bodyInvalid => exact ⟨["synthesis"], rfl⟩
  | success r => exact ⟨[], rfl⟩

/-- Claim C3, as stated, is false on the code: it asserts that
`getNextStage(s, "quick")` is the immediate successor of every completed
quick-mode stage `s` in `starting, council, round1, round2, round3,
synthesis, done`, but at `s = "starting"` the successor is `"council"`
while `getNextStage` falls through to its fallback and returns
`"starting"` (the caller patches this by mapping `starting` to `council`
before the call). -/
theorem c3_counterexample :
    listSuccessor quickStages "starting" = some "council" ∧
    getNextStage "starting" AnalysisMode.quick = "starting" ∧
    getNextStage "starting" AnalysisMode.quick ≠ "council" := by
  decide

/-- Claim C3, amended: `getNextStage(·, "quick")` maps each of `council`,
`round1`, `round2`, `round3` to its immediate successor in the quick stage
list; on `starting`, `synthesis` and `done` it returns its argument
unchanged (the caller maps `starting` to `council` before calling, and no
completion event carries `done`); and every stage value admitted by a
quick-session stream event is drawn from the quick stage list. -/
theorem c3_quick_stage_successors :
    ((["council", "round1", "round2", "round3"] : List String).all fun s =>
      listSuccessor quickStages s == some (getNextStage s AnalysisMode.quick)) = true ∧
    getNextStage "starting" AnalysisMode.quick = "starting" ∧
    getNextStage "synthesis" AnalysisMode.quick = "synthesis" ∧
    getNextStage "done" AnalysisMode.quick = "done" ∧
    ∀ q : QuickStage, q.name ∈ quickStages := by
  refine ⟨by decide, by decide, by decide, by decide, ?_⟩
  intro q
  cases q <;> decide

/-- Claim C4: `queuedCouncilSessionStream` invokes `onEvent` exactly on the
JSON-parseable frames starting with `data: ` of the stream (frames delimited
by blank lines), in stream order; the right-hand side depends only on the
concatenation of the chunks, so the result is independent of where the
transport's chunk boundaries fall. -/
theorem c4_stream_events (E : Type) (parse : List Char → Option E)
    (chunks : List (List Char)) :
    streamEvents parse chunks =
      (framesOf chunks.flatten).filterMap (parseFrame parse) := by
  unfold streamEvents framesOf
  rw [foldl_stepChunk E parse chunks [] [] (by rw [splitChunks])]
  simp

/-- Claim C5: when a client enqueues while the daily quota is exhausted, the
entry is accepted as `waiting` (quota untouched), no sequence of further
enqueues and promotion attempts ever fills the processing slot or changes
the quota, the `queue_info.daily_quota.is_exhausted = true` flag is visible
to subscribers, and on the code side the Start Audit Analysis button is
disabled whenever that flag is set.  The queue side is modelled from the
spec (sections 4.2 and 7, recommended policy); the button is translated
from UploadPage.tsx line 696. -/
theorem c5_exhausted_enqueue_policy (s : QueueState) (sid : String)
    (ops : List QueueOp) (h : s.quota.is_exhausted = true)
    (filesLength estWait : Nat) (isUploading : Bool) (resetsAt : String) :
    (qEnqueue s sid).waiting = s.waiting ++ [sid] ∧
    (qEnqueue s sid).quota = s.quota ∧
    (ops.foldl applyQueueOp (qEnqueue s sid)).processingSlot = s.processingSlot ∧
    (queueInfoOf s estWait resetsAt).daily_quota.is_exhausted = true ∧
    startButtonDisabled filesLength isUploading
      (some (queueInfoOf s estWait resetsAt)) = true := by
  refine ⟨rfl, rfl, ?_, ?_, ?_⟩
  · have h2 : (qEnqueue s sid).quota.is_exhausted = true := h
    exact (queueOps_exhausted_frozen ops (qEnqueue s sid) h2).1
  · exact h
  · simp [startButtonDisabled, queueInfoOf, h]

/-- Witness for claim C5: the policy evaluated at a concrete exhausted
state (quota 2 of 2 used), an enqueue of a second session, and a sequence
of promotion attempts interleaved with another enqueue. -/
theorem c5_witness :
    (QueueState.mk ["alice"] none (DailyQuota.mk 2 2)).quota.is_exhausted = true ∧
    ((qEnqueue (QueueState.mk ["alice"] none (DailyQuota.mk 2 2)) "bob").waiting =
        (QueueState.mk ["alice"] none (DailyQuota.mk 2 2)).waiting ++ ["bob"] ∧
      (qEnqueue (QueueState.mk ["alice"] none (DailyQuota.mk 2 2)) "bob").quota =
        (QueueState.mk ["alice"] none (DailyQuota.mk 2 2)).quota ∧
      (([QueueOp.promote, QueueOp.enqueue "carol", QueueOp.promote].foldl applyQueueOp
          (qEnqueue (QueueState.mk ["alice"] none (DailyQuota.mk 2 2)) "bob")).processingSlot =
        (QueueState.mk ["alice"] none (DailyQuota.mk 2 2)).processingSlot) ∧
      (queueInfoOf (QueueState.mk ["alice"] none (DailyQuota.mk 2 2)) 60
          "2025-10-12T00:00:00Z").daily_quota.is_exhausted = true ∧
      startButtonDisabled 1 false
        (some (queueInfoOf (QueueState.mk ["alice"] none (DailyQuota.mk 2 2)) 60
          "2025-10-12T00:00:00Z")) = true) :=
  ⟨by decide,
    c5_exhausted_enqueue_policy (QueueState.mk ["alice"] none (DailyQuota.mk 2 2)) "bob"
      [QueueOp.promote, QueueOp.enqueue "carol", QueueOp.promote] (by decide)
      1 60 false "2025-10-12T00:00:00Z"⟩

/-- Claim C6, as stated, is false on the code: it asserts that on a
successful response exactly one `complete` event is emitted, but when the
response is ok and its body fails to parse as JSON, `deepAnalysis` raises
after `stage legal_audit` with no `error` event and no `complete` event. -/
theorem c6_counterexample :
    (DeepOutcome.bodyInvalid (α := Unit)).responseOk = some true ∧
    ((deepAnalysisEvents (DeepOutcome.bodyInvalid (α := Unit))).any isErrorEvent) = false ∧
    ((deepAnalysisEvents (DeepOutcome.bodyInvalid (α := Unit))).countP isCompleteEvent) = 0 ∧
    deepAnalysisRaises (DeepOutcome.bodyInvalid (α := Unit)) = true := by
  decide

/-- Claim C6, amended: `auditApi.deepAnalysis` emits an `error` event exactly
when the HTTP response is not ok; it raises exactly when the call does not
complete normally (fetch rejection, non-ok response, or a response body that
fails to parse); an `error` event is never followed by any further event;
and exactly one `complete` event is emitted when the response is ok and its
body parses, none otherwise. -/
theorem c6_deep_error_complete_spec (α : Type) (o : DeepOutcome α) :
    ((deepAnalysisEvents o).any isErrorEvent = (o.responseOk == some false)) ∧
    (deepAnalysisRaises o = !o.isSuccess) ∧
    ((deepAnalysisEvents o).dropLast.any isErrorEvent = false) ∧
    ((deepAnalysisEvents o).countP isCompleteEvent = if o.isSuccess then 1 else 0) := by
  cases o <;> exact ⟨rfl, rfl, rfl, rfl⟩

/-- Claim C7, as stated, is false on the code: it asserts that every stream
event is one of exactly four kinds `queue`, `stage`, `complete`, `error`,
but the `QueueStreamEvent` union also admits `info`, which the
`handleUpload` event handler receives and logs. -/
theorem c7_counterexample :
    (QueueStreamEvent.info (α := Unit) "queue update").kind ∉
      (["queue", "stage", "complete", "error"] : List String) := by
  decide

/-- Claim C7, amended: every event a subscriber can receive on a session's
stream is one of exactly five kinds — `queue`, `stage`, `complete`, `error`,
`info` — and a `queue` event carries the field `position` together with a
`wait_time` record (fields `wait_seconds`, `wait_formatted`; there is no
`wait_estimate`) and an optional `queue_info` snapshot. -/
theorem c7_event_kinds (α : Type) (e : QueueStreamEvent α) :
    e.kind ∈ ["queue", "stage", "complete", "error", "info"] ∧
    (e.kind = "queue" →
      ∃ position wait_time queue_info,
        e = QueueStreamEvent.queue position wait_time queue_info) := by
  cases e with
  | queue p wt qi =>
    refine ⟨?_, fun _ => ⟨p, wt, qi, rfl⟩⟩
    show "queue" ∈ _; simp
  | stage s m =>
    refine ⟨?_, fun h => ?_⟩
    · show "stage" ∈ _; simp
    · simp [QueueStreamEvent.kind] at h
  | complete r =>
    refine ⟨?_, fun h => ?_⟩
    · show "complete" ∈ _; simp
    · simp [QueueStreamEvent.kind] at h
  | error m =>
    refine ⟨?_, fun h => ?_⟩
    · show "error" ∈ _; simp
    · simp [QueueStreamEvent.kind] at h
  | info m =>
    refine ⟨?_, fun h => ?_⟩
    · show "info" ∈ _; simp
    · simp [QueueStreamEvent.kind] at h

/-- Witness for claim C7 (amended): the statement evaluated at a concrete
queue event. -/
theorem c7_event_kinds_witness :
    (QueueStreamEvent.queue (α := Unit) 1 ⟨30, "30s"⟩ none).kind ∈
      ["queue", "stage", "complete", "error", "info"] ∧
    ((QueueStreamEvent.queue (α := Unit) 1 ⟨30, "30s"⟩ none).kind = "queue" →
      ∃ position wait_time queue_info,
        QueueStreamEvent.queue (α := Unit) 1 ⟨30, "30s"⟩ none =
          QueueStreamEvent.queue position wait_time queue_info) :=
  c7_event_kinds Unit (QueueStreamEvent.queue 1 ⟨30, "30s"⟩ none)

/-- Preservation of the processing bound by one orchestrator transition. -/
theorem orchStep_preserves_processing_bound (a b : OrchState)
    (hstep : OrchStep a b) (hinv : countProcessing a ≤ 1) :
    countProcessing b ≤ 1 := by
  cases hstep with
  | enqueue nid sid mode =>
    unfold countProcessing at hinv ⊢
    dsimp only
    rw [List.countP_append]
    simpa using hinv
  | promote i e hi hw hnone hq =>
    unfold countProcessing
    dsimp only
    have h0 : a.entries.countP (fun e' => e'.status == EntryStatus.processing) = 0 :=
      List.countP_eq_zero.mpr (by
        intro x hx
        simpa using hnone x hx)
    have hle := countP_set_le (fun e' => e'.status == EntryStatus.processing)
      a.entries i { e with status := EntryStatus.processing }
    omega
  | cancelWaiting i e hi hw =>
    unfold countProcessing at hinv ⊢
    dsimp only
    have := countP_eraseIdx_le (fun e' => e'.status == EntryStatus.processing)
      a.entries i
    omega
  | finish i e t hi hp ht =>
    unfold countProcessing at hinv ⊢
    dsimp only
    have hx : (({ e with status := t } : OrchEntry).status ==
        EntryStatus.processing) = false := by
      rcases ht with rfl | rfl | rfl | rfl <;> rfl
    have := countP_set_not (fun e' => e'.status == EntryStatus.processing)
      a.entries i { e with status := t } hx
    omega

/-- Claim C8: for every state of the orchestrator reachable by any
interleaving of enqueue, promotion, cancellation, timeout and completion,
at most one entry has status `processing`.  The orchestrator is modelled
from the spec (sections 3 and 5); the promotion rule requires that no entry
be `processing` and the quota not be exhausted. -/
theorem c8_at_most_one_processing (limit : Nat) (s : OrchState)
    (h : OrchReachable limit s) : countProcessing s ≤ 1 := by
  unfold OrchReachable at h
  induction h with
  | refl => simp [countProcessing, initOrchState]
  | tail hab hstep ih =>
    exact orchStep_preserves_processing_bound _ _ hstep ih

/-- Witness for claim C8: a concrete reachable state — one session enqueued
and then promoted — satisfies the invariant. -/
theorem c8_witness :
    OrchReachable 5
      { entries := [⟨0, "alice", EntryStatus.processing, AnalysisMode.quick⟩]
        quota := { used := 1, limit := 5 } } ∧
    countProcessing
      { entries := [⟨0, "alice", EntryStatus.processing, AnalysisMode.quick⟩]
        quota := { used := 1, limit := 5 } } ≤ 1 := by
  have hstep1 : OrchStep (initOrchState 5)
      { entries := [⟨0, "alice", EntryStatus.waiting, AnalysisMode.quick⟩]
        quota := { used := 0, limit := 5 } } :=
    OrchStep.enqueue (initOrchState 5) 0 "alice" AnalysisMode.quick
  have hstep2 : OrchStep
      { entries := [⟨0, "alice", EntryStatus.waiting, AnalysisMode.quick⟩]
        quota := { used := 0, limit := 5 } }
      { entries := [⟨0, "alice", EntryStatus.processing, AnalysisMode.quick⟩]
        quota := { used := 1, limit := 5 } } :=
    OrchStep.promote
      { entries := [⟨0, "alice", EntryStatus.waiting, AnalysisMode.quick⟩]
        quota := { used := 0, limit := 5 } }
      0 ⟨0, "alice", EntryStatus.waiting, AnalysisMode.quick⟩
      rfl rfl (by decide) (by decide)
  have hreach : OrchReachable 5
      { entries := [⟨0, "alice", EntryStatus.processing, AnalysisMode.quick⟩]
        quota := { used := 1, limit := 5 } } :=
    Relation.ReflTransGen.tail
      (Relation.ReflTransGen.tail Relation.ReflTransGen.refl hstep1) hstep2
  exact ⟨hreach, c8_at_most_one_processing 5 _ hreach⟩

/-- Claim C9, as stated, is false on the code: it asserts that a file is
added iff its extension and size are valid (given the 2-file limit holds),
but a valid file whose name coincides with a file already selected is
silently dropped by the `addFiles` store action. -/
theorem c9_counterexample :
    validateFile ⟨"a.pdf", 2⟩ = none ∧
    ([⟨"a.pdf", 1⟩] : List FileInfo).length + ([⟨"a.pdf", 2⟩] : List FileInfo).length ≤ 2 ∧
    handleFiles [⟨"a.pdf", 1⟩] [⟨"a.pdf", 2⟩] = [⟨"a.pdf", 1⟩] ∧
    (⟨"a.pdf", 2⟩ : FileInfo) ∉ handleFiles [⟨"a.pdf", 1⟩] [⟨"a.pdf", 2⟩] := by
  decide

/-- Claim C9, amended: an add is rejected outright (selection unchanged)
whenever the current selection plus the new files would exceed 2 files;
otherwise the new selection is exactly the old one followed by those new
files that pass `validateFile` (accepted extension `.pdf`, `.docx` or
`.txt` case-insensitively, size at most 10485760 bytes) and whose name does
not already occur in the selection. -/
theorem c9_handleFiles_spec (stateFiles newFiles : List FileInfo) :
    handleFiles stateFiles newFiles =
      if stateFiles.length + newFiles.length > 2 then stateFiles
      else
        stateFiles ++ newFiles.filter fun f =>
          (validateFile f).isNone && !(stateFiles.any fun g => g.name == f.name) := by
  have hff :
      (newFiles.filter fun f => (validateFile f).isNone).filter
          (fun f => !(stateFiles.any fun g => g.name == f.name)) =
        newFiles.filter fun f =>
          (validateFile f).isNone && !(stateFiles.any fun g => g.name == f.name) := by
    rw [List.filter_filter]
    simp [Bool.and_comm]
  rw [handleFiles]
  dsimp only
  split
  · rfl
  · split
    · next h =>
      unfold addFiles
      rw [hff]
    · next h =>
      have hnil : newFiles.filter (fun f => (validateFile f).isNone) = [] := by
        have hz : (newFiles.filter fun f => (validateFile f).isNone).length = 0 := by
          omega
        exact List.length_eq_zero.mp hz
      rw [← hff, hnil]
      simp

/-- Claim C10, as stated, is false on the code: it asserts that
`0 ≤ currentCardIndex` after any action sequence, but from the initial
state (empty `flashcards`), one `acceptCard` sets
`currentCardIndex = Math.min(0 + 1, 0 - 1) = -1`. -/
theorem c10_counterexample :
    (runActions [AuditAction.acceptCard ⟨"c1"⟩]).currentCardIndex = -1 ∧
    ¬ (0 ≤ (runActions [AuditAction.acceptCard ⟨"c1"⟩]).currentCardIndex) := by
  decide

/-- Claim C10, amended: after any sequence of store actions from the initial
state, `-1 ≤ currentCardIndex ≤ max 0 (flashcards.length - 1)`, and the
value `-1` is reachable only while `flashcards` is empty (whenever
`flashcards` is nonempty, `0 ≤ currentCardIndex`). -/
theorem c10_index_bounds (acts : List AuditAction) :
    -1 ≤ (runActions acts).currentCardIndex ∧
    (runActions acts).currentCardIndex ≤
      max 0 (((runActions acts).flashcards.length : Int) - 1) ∧
    ((runActions acts).flashcards.length = 0 ∨
      0 ≤ (runActions acts).currentCardIndex) := by
  have h0 : IndexInv initialAuditResultState := by
    unfold IndexInv initialAuditResultState
    decide
  exact indexInv_foldl acts initialAuditResultState h0

end SpecGap
